import Mathlib

/-!
# Verification of the topk-bench top-k selection core

Shallow embedding of `src/lib.rs` of the `topk-bench` repository: the `Hit`
data type with its reversed score ordering, the two reusable selectors
(`HeapTopK`, `MedianTopK`), and the two single-shot reference functions
(`simplified_heap_top_k`, `simplified_median_top_k`).

Modelling conventions:
* `Score` (Rust `u64`) and `DocId` (Rust `u32`) are modelled as `Nat`.  The
  code only ever compares these values (no arithmetic), so no wrap-around can
  occur and `Nat` is a faithful model.
* Fallible operations (panics: `unwrap` on an empty heap, the output-length
  assertion, out-of-bounds slice indexing, `assert!(k > 0)`) are modelled with
  `Option`: `none` is a panic.
* `std::collections::BinaryHeap<Hit>` is a max-heap for `Hit`'s reversed
  (by-score) ordering, i.e. its root is a stored hit of minimal score.  The
  heap is a multiset whose internal arrangement is unspecified; we model it
  deterministically as the list of stored hits kept sorted by ascending score
  (one legal arrangement), so `peek` is the head of the list.
* `select_nth_unstable(k-1)` on a slice of `Hit` (with `Hit`'s reversed
  ordering) only guarantees that the element with ascending-`Ord` rank `k-1`
  (that is, the hit with the k-th largest score) lands at index `k-1`, smaller
  ranks before it and larger after.  A fully sorted arrangement is one legal
  outcome; we model the resulting arrangement deterministically as sorting the
  slice by descending score (`sortHitsDesc`).  Likewise `sort_unstable` and
  `into_sorted_vec` (ascending in `Hit`'s reversed order = descending score)
  are modelled by `sortHitsDesc`.
-/

namespace TopkBench

/-- Rust `type Score = u64;` (only compared, never computed with). -/
abbrev Score := Nat

/-- Rust `type DocId = u32;` (only compared for equality). -/
abbrev DocId := Nat

/-- Rust `struct Hit { score: Score, doc: DocId }`.  `PartialEq`/`Eq` derive
structural equality on both fields, which is exactly Lean's `DecidableEq`. -/
structure Hit where
  score : Nat
  doc : Nat
deriving DecidableEq, Repr

/-- Rust `impl Ord for Hit`: `self.score.cmp(&other.score).reverse()` — the
comparison consults only `score`, reversed so that a `BinaryHeap` (a max-heap)
keeps the hit of minimal score at its root. -/
def Hit.cmp (a b : Hit) : Ordering :=
  (compare a.score b.score).swap

/-- The descending-by-score relation on scores: `descN a b` holds when `b ≤ a`.
`List.insertionSort descN` sorts a score list into descending order. -/
def descN (a b : Nat) : Prop := b ≤ a

instance : DecidableRel descN := fun a b => inferInstanceAs (Decidable (b ≤ a))

instance : IsTotal Nat descN := ⟨fun a b => Nat.le_total b a⟩

instance : IsTrans Nat descN := ⟨fun _ _ _ hab hbc => Nat.le_trans hbc hab⟩

instance : IsAntisymm Nat descN := ⟨fun _ _ h1 h2 => Nat.le_antisymm h2 h1⟩

instance : IsRefl Nat descN := ⟨fun _ => Nat.le_refl _⟩

/-- Descending-by-score relation on hits (the strict part ignores `doc`,
mirroring `Hit`'s `Ord`). -/
def hitDesc (a b : Hit) : Prop := b.score ≤ a.score

instance : DecidableRel hitDesc := fun a b => inferInstanceAs (Decidable (b.score ≤ a.score))

instance : IsTotal Hit hitDesc := ⟨fun a b => Nat.le_total b.score a.score⟩

instance : IsTrans Hit hitDesc := ⟨fun _ _ _ hab hbc => Nat.le_trans hbc hab⟩

instance : IsRefl Hit hitDesc := ⟨fun _ => Nat.le_refl _⟩

/-- Ascending-by-score relation on hits; the internal heap list is kept sorted
by this relation (root = head = minimal score = greatest in `Hit`'s `Ord`). -/
def hitAsc (a b : Hit) : Prop := a.score ≤ b.score

instance : DecidableRel hitAsc := fun a b => inferInstanceAs (Decidable (a.score ≤ b.score))

instance : IsTotal Hit hitAsc := ⟨fun a b => Nat.le_total a.score b.score⟩

instance : IsTrans Hit hitAsc := ⟨fun _ _ _ hab hbc => Nat.le_trans hab hbc⟩

instance : IsRefl Hit hitAsc := ⟨fun _ => Nat.le_refl _⟩

/-- Sort a score list into descending order. -/
def sortDescN (l : List Nat) : List Nat := l.insertionSort descN

/-- Sort a hit list into descending order of score (the deterministic model of
`sort_unstable` / `into_sorted_vec` / a completed `select_nth_unstable` under
`Hit`'s reversed ordering). -/
def sortHitsDesc (l : List Hit) : List Hit := l.insertionSort hitDesc

/-- The canonical top-k of a score list: the `k` largest scores, in descending
order.  Every implementation in the file is proved to produce exactly this
multiset of scores. -/
def topkN (k : Nat) (l : List Nat) : List Nat := (sortDescN l).take k

/-! ## The bounded-heap selector (`HeapTopK`) -/

/-- `BinaryHeap::extend` over a list of hits: push each in turn.  In the
sorted-list model of the heap a push is an ordered insertion. -/
def heapOfList (l : List Hit) : List Hit :=
  l.foldl (fun h x => h.orderedInsert hitAsc x) []

/-- One iteration of the `for hit in hits` loop body shared by
`HeapTopK::top_k` (lines 58–66) and `simplified_heap_top_k` (lines 124–132):

* `hit.score <= threshold` → `continue` (state unchanged);
* otherwise `peek_mut().unwrap()` (a panic — `none` — if the heap is empty),
  replace the root by `hit` (the heap re-sifts: remove the root, insert the
  hit), and recompute `threshold = peek().unwrap().score` from the new root.

The state is the heap together with the current `threshold`. -/
def heapStep (st : List Hit × Nat) (x : Hit) : Option (List Hit × Nat) :=
  if x.score ≤ st.2 then some st
  else
    match st.1 with
    | [] => none
    | _ :: tl =>
      let heap2 := tl.orderedInsert hitAsc x
      match heap2.head? with
      | none => none
      | some root => some (heap2, root.score)

/-- The whole `for hit in hits` loop, folding `heapStep` over the remaining
stream; `none` propagates a panic. -/
def heapRun (st : List Hit × Nat) : List Hit → Option (List Hit × Nat)
  | [] => some st
  | x :: rest =>
    match heapStep st x with
    | none => none
    | some st2 => heapRun st2 rest

/-- `HeapTopK::top_k` (lines 53–71) as a function of `k` and the stream; the
heap is cleared on entry, so the result cannot depend on the stored state.

1. `self.top_k.extend((&mut hits).take(self.k))` seeds the heap;
2. `self.top_k.peek().unwrap()` — a panic (`none`) if fewer than one element
   was available (empty stream, or `k == 0`);
3. the processing loop (`heapRun`);
4. `output.clear(); output.extend(self.top_k.drain())` — the output is the
   drained heap content (drain order is unspecified; the model returns the
   heap list, i.e. ascending scores);
5. `assert_eq!(output.len(), self.k)` — a panic (`none`) if it fails. -/
def heapTopK (k : Nat) (hits : List Hit) : Option (List Hit) :=
  match heapOfList (hits.take k) with
  | [] => none
  | root :: tl =>
    match heapRun (root :: tl, root.score) (hits.drop k) with
    | none => none
    | some st =>
      if st.1.length = k then some st.1 else none

/-- Rust `struct HeapTopK { top_k: BinaryHeap<Hit>, k: usize }`.  The field
`top_k` is renamed `heap` because the method of the same name is also
declared in the `HeapTopK` namespace. -/
structure HeapTopK where
  heap : List Hit
  k : Nat
deriving DecidableEq, Repr

/-- `<HeapTopK as TopK>::new(k)`: an empty heap with capacity `k`. -/
def HeapTopK.new (k : Nat) : HeapTopK := ⟨[], k⟩

/-- `<HeapTopK as TopK>::top_k(&mut self, hits, output)`: the method clears
the heap first and drains it last, so the output is `heapTopK self.k hits`
and the final stored heap is empty.  Returns the new state together with the
contents written to `output` (which the Rust code clears and then fills). -/
def HeapTopK.top_k (s : HeapTopK) (hits : List Hit) : Option (HeapTopK × List Hit) :=
  (heapTopK s.k hits).map fun out => (⟨[], s.k⟩, out)

/-! ## The buffered quickselect selector (`MedianTopK`) -/

/-- One iteration of the `for hit in hits` loop body of `MedianTopK::top_k`
(lines 96–107).  The state is `(buf, len, threshold)` where `buf` models the
fixed `Box<[Hit]>` of physical length `2k`, and `len` is the local active
length:

* `hit.score <= threshold` → `continue`;
* `self.top_k[len] = hit` — an out-of-bounds panic (`none`) if
  `len ≥ buf.length`; then `len += 1`;
* if `len == self.top_k.len()`:
  `select_nth_unstable(self.k - 1)` rearranges the whole buffer (modelled as
  the descending sort), a panic (`none`) if `k - 1` is out of bounds;
  `threshold` becomes the score at index `k-1`; `len = self.k`. -/
def medianStep (k : Nat) (st : List Hit × Nat × Nat) (x : Hit) :
    Option (List Hit × Nat × Nat) :=
  let buf := st.1
  let len := st.2.1
  let t := st.2.2
  if x.score ≤ t then some (buf, len, t)
  else if len < buf.length then
    let buf2 := buf.set len x
    if len + 1 = buf2.length then
      let sorted := sortHitsDesc buf2
      match sorted[k-1]? with
      | none => none
      | some piv => some (sorted, k, piv.score)
    else some (buf2, len + 1, t)
  else none

/-- The whole `for hit in hits` loop of `MedianTopK::top_k`. -/
def medianRun (k : Nat) (st : List Hit × Nat × Nat) : List Hit → Option (List Hit × Nat × Nat)
  | [] => some st
  | x :: rest =>
    match medianStep k st x with
    | none => none
    | some st2 => medianRun k st2 rest

/-- Rust `struct MedianTopK { top_k: Box<[Hit]>, k: usize }`.  The field
`top_k` is renamed `buf` because the method of the same name is also declared
in the `MedianTopK` namespace. -/
structure MedianTopK where
  buf : List Hit
  k : Nat
deriving DecidableEq, Repr

/-- `<MedianTopK as TopK>::new(k)` (lines 81–87): a boxed slice of `2k`
zero-score placeholder hits. -/
def MedianTopK.new (k : Nat) : MedianTopK :=
  ⟨List.replicate (2 * k) ⟨0, 0⟩, k⟩

/-- `<MedianTopK as TopK>::top_k(&mut self, hits, output)` (lines 89–115):

1. `threshold = 0`; `len = self.top_k.len().min(self.k)`;
2. the zip loop copies the first `min(len, stream length)` hits into the
   leading buffer cells (consuming exactly that many stream elements; the
   remaining cells keep their previous contents — the buffer is *not*
   cleared between calls);
3. the processing loop (`medianRun`) over the remaining stream;
4. `if self.top_k.len() > self.k` run a final `select_nth_unstable(k-1)`
   over the whole physical buffer (modelled as the descending sort);
5. `output.clear(); output.extend(self.top_k[..self.k])` — a slice panic
   (`none`) if `k` exceeds the buffer length.

Returns the new state (the permuted buffer persists) and the output. -/
def MedianTopK.top_k (s : MedianTopK) (hits : List Hit) : Option (MedianTopK × List Hit) :=
  let len0 := min s.buf.length s.k
  let m := min len0 hits.length
  let buf0 := hits.take m ++ s.buf.drop m
  match medianRun s.k (buf0, len0, 0) (hits.drop m) with
  | none => none
  | some st =>
    let buf2 := if s.k < st.1.length then sortHitsDesc st.1 else st.1
    if s.k ≤ buf2.length then some (⟨buf2, s.k⟩, buf2.take s.k) else none

/-! ## The single-shot reference functions -/

/-- `simplified_heap_top_k(hits, k)` (lines 119–135): same seeding, same
`unwrap` panic on an empty seed, same processing loop as `HeapTopK::top_k`,
but the result is `into_sorted_vec()` — ascending in `Hit`'s reversed
ordering, i.e. sorted by descending score — and there is no length
assertion. -/
def simplified_heap_top_k (hits : List Hit) (k : Nat) : Option (List Hit) :=
  match heapOfList (hits.take k) with
  | [] => none
  | root :: tl =>
    match heapRun (root :: tl, root.score) (hits.drop k) with
    | none => none
    | some st => some (sortHitsDesc st.1)

/-- One iteration of the `for hit in hits` loop body of
`simplified_median_top_k` (lines 146–156).  The accumulator is a growable
`Vec` (no placeholder cells), paired with the threshold:

* `hit.score <= threshold` → `continue`;
* `top_k.push(hit)`;
* if `top_k.len() == 2*k`: `select_nth_unstable(k-1)` (modelled as the
  descending sort), read the new threshold at index `k-1` (always in bounds
  here since `k ≥ 1` is asserted by the caller — the default `0` is dead
  code), and `truncate(k)`. -/
def simpMedianStep (k : Nat) (st : List Hit × Nat) (x : Hit) : List Hit × Nat :=
  let acc := st.1
  let t := st.2
  if x.score ≤ t then (acc, t)
  else
    let acc2 := acc ++ [x]
    if acc2.length = 2 * k then
      let sorted := sortHitsDesc acc2
      (sorted.take k, ((sorted[k-1]?).map Hit.score).getD 0)
    else (acc2, t)

/-- The whole `for hit in hits` loop of `simplified_median_top_k`. -/
def simpMedianRun (k : Nat) (st : List Hit × Nat) : List Hit → List Hit × Nat
  | [] => st
  | x :: rest => simpMedianRun k (simpMedianStep k st x) rest

/-- `simplified_median_top_k(hits, k)` (lines 137–160):

1. `assert!(k > 0)` — a panic (`none`) when `k = 0`;
2. prefill with the first `k` stream elements;
3. the processing loop with `threshold = 0`;
4. `sort_unstable()` (descending score) and `truncate(k)`. -/
def simplified_median_top_k (hits : List Hit) (k : Nat) : Option (List Hit) :=
  if k = 0 then none
  else
    let st := simpMedianRun k (hits.take k, 0) (hits.drop k)
    some ((sortHitsDesc st.1).take k)

/-! ## Score-level facts about descending sorting and `topkN` -/

theorem sortDescN_cons (x : Nat) (l : List Nat) :
    sortDescN (x :: l) = (sortDescN l).orderedInsert descN x := rfl

theorem sortDescN_perm (l : List Nat) : List.Perm (sortDescN l) l :=
  List.perm_insertionSort descN l

theorem sortDescN_sorted (l : List Nat) : (sortDescN l).Sorted descN :=
  List.sorted_insertionSort descN l

theorem sortDescN_length (l : List Nat) : (sortDescN l).length = l.length :=
  (sortDescN_perm l).length_eq

theorem sortDescN_congr {l₁ l₂ : List Nat} (h : List.Perm l₁ l₂) : sortDescN l₁ = sortDescN l₂ :=
  List.eq_of_perm_of_sorted ((sortDescN_perm l₁).trans (h.trans (sortDescN_perm l₂).symm))
    (sortDescN_sorted l₁) (sortDescN_sorted l₂)

theorem sortDescN_eq_self {l : List Nat} (h : l.Sorted descN) : sortDescN l = l :=
  h.insertionSort_eq

theorem sortDescN_snoc (l : List Nat) (x : Nat) :
    sortDescN (l ++ [x]) = (sortDescN l).orderedInsert descN x := by
  rw [sortDescN_congr (List.perm_append_singleton x l), sortDescN_cons]

theorem topkN_length (k : Nat) (l : List Nat) : (topkN k l).length = min k l.length := by
  simp [topkN, sortDescN_length]

theorem topkN_sorted (k : Nat) (l : List Nat) : (topkN k l).Sorted descN :=
  (sortDescN_sorted l).sublist (List.take_sublist k _)

theorem topkN_subset {k : Nat} {l : List Nat} : ∀ y ∈ topkN k l, y ∈ l := fun _ hy =>
  (sortDescN_perm l).mem_iff.1 (List.take_subset _ _ hy)

theorem topkN_congr {l₁ l₂ : List Nat} (h : List.Perm l₁ l₂) (k : Nat) : topkN k l₁ = topkN k l₂ := by
  unfold topkN; rw [sortDescN_congr h]

/-- Truncating to the first `k` elements commutes with an ordered insertion:
only the first `k` elements of the input can influence the first `k` elements
of the output. -/
theorem take_orderedInsert_take (x : Nat) :
    ∀ (S : List Nat) (k : Nat),
      (S.orderedInsert descN x).take k = ((S.take k).orderedInsert descN x).take k := by
  intro S
  induction S with
  | nil => intro k; simp
  | cons b S ih =>
    intro k
    cases k with
    | zero => simp
    | succ k =>
      by_cases h : descN x b
      · simp only [List.orderedInsert, List.take_succ_cons, if_pos h]
        cases k with
        | zero => simp
        | succ k =>
          simp only [List.take_succ_cons, List.take_take]
          rw [Nat.min_eq_left (Nat.le_succ k)]
      · simp only [List.orderedInsert, List.take_succ_cons, if_neg h]
        rw [ih k]

/-- `topkN` of a snoc, computed from `topkN` of the prefix alone. -/
theorem topkN_snoc (k : Nat) (L : List Nat) (x : Nat) :
    topkN k (L ++ [x]) = ((topkN k L).orderedInsert descN x).take k := by
  unfold topkN
  rw [sortDescN_snoc, take_orderedInsert_take]

/-- Inserting an element no larger than any element of a full sorted window
does not change the window. -/
theorem orderedInsert_take_length (x : Nat) :
    ∀ {T : List Nat}, T.Sorted descN → (∀ y ∈ T, x ≤ y) →
      (T.orderedInsert descN x).take T.length = T := by
  intro T
  induction T with
  | nil => intro _ _; simp
  | cons b T ih =>
    intro hs hall
    by_cases h : descN x b
    · have hbx : b = x := Nat.le_antisymm h (hall b (List.mem_cons_self b T))
      subst hbx
      obtain ⟨n, rfl⟩ : ∃ n, T = List.replicate n b :=
        ⟨T.length, List.eq_replicate_of_mem fun y hy =>
          Nat.le_antisymm (List.rel_of_sorted_cons hs y hy)
            (hall y (List.mem_cons_of_mem _ hy))⟩
      rw [List.orderedInsert, if_pos h]
      rw [show (b :: b :: List.replicate n b : List Nat) = List.replicate (n + 2) b by
            simp [List.replicate_succ]]
      rw [show (b :: List.replicate n b : List Nat) = List.replicate (n + 1) b from
            (List.replicate_succ b n).symm]
      rw [List.length_replicate, List.take_replicate]
      congr 1
      omega
    · rw [List.orderedInsert, if_neg h]
      simp only [List.length_cons, List.take_succ_cons]
      rw [ih hs.tail fun y hy => hall y (List.mem_cons_of_mem _ hy)]

/-- Inserting an element strictly larger than the last element of a window
and re-truncating replaces that last element (as a multiset). -/
theorem take_orderedInsert_snoc_perm (x a : Nat) :
    ∀ (T : List Nat), a < x →
      List.Perm (((T ++ [a]).orderedInsert descN x).take (T.length + 1)) (x :: T) := by
  intro T
  induction T with
  | nil =>
    intro hax
    simp [List.orderedInsert, descN, Nat.le_of_lt hax]
  | cons b T ih =>
    intro hax
    by_cases h : descN x b
    · simp only [List.cons_append, List.orderedInsert, if_pos h, List.length_cons,
        List.take_succ_cons]
      rw [show T.append [a] = T ++ [a] from rfl, List.take_left]
    · simp only [List.cons_append, List.orderedInsert, if_neg h, List.length_cons,
        List.take_succ_cons]
      exact ((ih hax).cons b).trans (List.Perm.swap x b T)

/-- Appending an element that is at most the threshold `t` does not change the
top-k, provided the current top-k is full and lies entirely at or above `t`. -/
theorem topkN_snoc_of_le {k : Nat} {L : List Nat} {t x : Nat} (hlen : k ≤ L.length)
    (hall : ∀ y ∈ topkN k L, t ≤ y) (hx : x ≤ t) : topkN k (L ++ [x]) = topkN k L := by
  have hT : (topkN k L).length = k := by rw [topkN_length]; omega
  have h2 := orderedInsert_take_length x (topkN_sorted k L)
    fun y hy => Nat.le_trans hx (hall y hy)
  rw [hT] at h2
  rw [topkN_snoc, h2]

/-- Appending any number of elements at most the threshold does not change the
top-k. -/
theorem topkN_append_of_le {k t : Nat} :
    ∀ (M L : List Nat), k ≤ L.length → (∀ y ∈ topkN k L, t ≤ y) → (∀ y ∈ M, y ≤ t) →
      topkN k (L ++ M) = topkN k L := by
  intro M
  induction M with
  | nil => intro L _ _ _; simp
  | cons x M ih =>
    intro L hlen hall hM
    have h1 : topkN k (L ++ [x]) = topkN k L :=
      topkN_snoc_of_le hlen hall (hM x (List.mem_cons_self x M))
    have h2 : topkN k ((L ++ [x]) ++ M) = topkN k (L ++ [x]) := by
      apply ih
      · simpa using Nat.le_trans hlen (by simp)
      · rw [h1]; exact hall
      · exact fun y hy => hM y (List.mem_cons_of_mem _ hy)
    rw [← List.append_cons] at h2
    rw [h2, h1]

/-! ## Mapping hit sorting to score sorting -/

theorem map_score_orderedInsert (x : Hit) (l : List Hit) :
    (l.orderedInsert hitDesc x).map Hit.score =
      (l.map Hit.score).orderedInsert descN x.score := by
  induction l with
  | nil => rfl
  | cons b l ih =>
    by_cases h : b.score ≤ x.score
    · simp [List.orderedInsert, hitDesc, descN, h]
    · simp [List.orderedInsert, hitDesc, descN, h, ih]

theorem map_score_sortHitsDesc (l : List Hit) :
    (sortHitsDesc l).map Hit.score = sortDescN (l.map Hit.score) := by
  induction l with
  | nil => rfl
  | cons b l ih =>
    show ((sortHitsDesc l).orderedInsert hitDesc b).map Hit.score = _
    rw [map_score_orderedInsert, ih]
    rfl

theorem sortHitsDesc_perm (l : List Hit) : List.Perm (sortHitsDesc l) l :=
  List.perm_insertionSort hitDesc l

theorem sortHitsDesc_sorted (l : List Hit) : (sortHitsDesc l).Sorted hitDesc :=
  List.sorted_insertionSort hitDesc l

theorem sortHitsDesc_length (l : List Hit) : (sortHitsDesc l).length = l.length :=
  (sortHitsDesc_perm l).length_eq

/-- The reverse of a list of hits sorted by ascending score has its score list
sorted descending; in particular that score list is its own descending sort. -/
theorem sortDescN_map_of_asc {l : List Hit} (h : l.Sorted hitAsc) :
    sortDescN (l.map Hit.score) = (l.map Hit.score).reverse := by
  apply List.eq_of_perm_of_sorted
    ((sortDescN_perm _).trans (List.reverse_perm _).symm)
    (sortDescN_sorted _)
  rw [List.Sorted, List.pairwise_reverse]
  rw [List.pairwise_map]
  exact h

/-! ## The bounded-heap loop invariant -/

/-- Invariant of the `HeapTopK` / `simplified_heap_top_k` processing loop:
after the prefix `seen` of the stream has been consumed, the heap list is
sorted by ascending score (so its head is the root: the weakest retained
hit), holds exactly `k` hits, the threshold is the root's score, the
retained scores are exactly the `k` largest scores seen so far, and the
retained hits form a sub-multiset of the hits seen so far. -/
def HeapInv (k : Nat) (st : List Hit × Nat) (seen : List Hit) : Prop :=
  st.1.Sorted hitAsc ∧ st.1.length = k ∧
    (∃ root, st.1.head? = some root ∧ root.score = st.2) ∧
    topkN k (seen.map Hit.score) = (st.1.map Hit.score).reverse ∧
    st.1.Subperm seen

theorem sorted_head_le {heap : List Hit} {root : Hit} (hs : heap.Sorted hitAsc)
    (hhead : heap.head? = some root) : ∀ h ∈ heap, root.score ≤ h.score := by
  cases heap with
  | nil => simp at hhead
  | cons a tl =>
    have ha : a = root := by simpa using hhead
    subst ha
    intro h hm
    rcases List.mem_cons.mp hm with rfl | hm
    · exact Nat.le_refl _
    · exact List.rel_of_sorted_cons hs h hm

theorem HeapInv.score_ge {k : Nat} {st : List Hit × Nat} {seen : List Hit}
    (hinv : HeapInv k st seen) : ∀ h ∈ st.1, st.2 ≤ h.score := by
  obtain ⟨hs, -, ⟨root, hhead, hroot⟩, -, -⟩ := hinv
  intro h hm
  exact hroot ▸ sorted_head_le hs hhead h hm

theorem HeapInv.seen_length {k : Nat} {st : List Hit × Nat} {seen : List Hit}
    (hinv : HeapInv k st seen) : k ≤ seen.length := by
  obtain ⟨-, hlen, -, htop, -⟩ := hinv
  have h1 := congrArg List.length htop
  rw [topkN_length] at h1
  simp only [List.length_reverse, List.length_map] at h1
  rw [hlen] at h1
  omega

theorem HeapInv.topk_ge {k : Nat} {st : List Hit × Nat} {seen : List Hit}
    (hinv : HeapInv k st seen) : ∀ y ∈ topkN k (seen.map Hit.score), st.2 ≤ y := by
  intro y hy
  rw [hinv.2.2.2.1] at hy
  rw [List.mem_reverse, List.mem_map] at hy
  obtain ⟨h, hm, rfl⟩ := hy
  exact hinv.score_ge h hm

/-- One loop iteration preserves the invariant (and a skipped hit leaves the
state untouched). -/
theorem heapStep_inv {k : Nat} {st : List Hit × Nat} {seen : List Hit} (x : Hit)
    (hinv : HeapInv k st seen) :
    ∃ st2, heapStep st x = some st2 ∧ HeapInv k st2 (seen ++ [x]) ∧
      (x.score ≤ st.2 → st2 = st) := by
  have hSlen : k ≤ (seen.map Hit.score).length := by
    rw [List.length_map]; exact hinv.seen_length
  obtain ⟨heap, t⟩ := st
  obtain ⟨hs, hlen, ⟨root, hhead, hroot⟩, htop, hsub⟩ := hinv
  dsimp only at hs hlen hhead hroot htop hsub hSlen ⊢
  by_cases hx : x.score ≤ t
  · refine ⟨(heap, t), by simp [heapStep, hx], ⟨hs, hlen, ⟨root, hhead, hroot⟩, ?_, ?_⟩,
      fun _ => rfl⟩
    · have e1 : (seen ++ [x]).map Hit.score = seen.map Hit.score ++ [x.score] := by simp
      rw [e1, topkN_snoc_of_le hSlen (HeapInv.topk_ge
        (show HeapInv k (heap, t) seen from ⟨hs, hlen, ⟨root, hhead, hroot⟩, htop, hsub⟩))
        hx, htop]
    · exact hsub.trans (List.sublist_append_left seen [x]).subperm
  · cases heap with
    | nil => simp at hhead
    | cons a tl =>
      have ha : a = root := by simpa using hhead
      have hat : a.score = t := by rw [ha, hroot]
      have hax : a.score < x.score := by omega
      have hlen2 : (tl.orderedInsert hitAsc x).length = k := by
        rw [List.orderedInsert_length]
        simpa using hlen
      obtain ⟨r2, tl2, hh2⟩ : ∃ r2 tl2, tl.orderedInsert hitAsc x = r2 :: tl2 := by
        cases hcc : tl.orderedInsert hitAsc x with
        | nil =>
          exfalso
          rw [hcc] at hlen2
          simp only [List.length_nil] at hlen2
          simp only [List.length_cons] at hlen
          omega
        | cons r2 tl2 => exact ⟨r2, tl2, rfl⟩
      have hs2 : (tl.orderedInsert hitAsc x).Sorted hitAsc :=
        List.Sorted.orderedInsert x tl hs.tail
      refine ⟨(tl.orderedInsert hitAsc x, r2.score), ?_, ?_, fun hcon => absurd hcon hx⟩
      · simp only [heapStep, if_neg hx]
        rw [hh2]
        simp
      · refine ⟨hs2, hlen2, ⟨r2, by rw [hh2]; exact rfl, rfl⟩, ?_, ?_⟩
        · rw [← sortDescN_map_of_asc hs2]
          apply List.eq_of_perm_of_sorted _ (topkN_sorted _ _) (sortDescN_sorted _)
          have e1 : (seen ++ [x]).map Hit.score = seen.map Hit.score ++ [x.score] := by simp
          rw [e1, topkN_snoc, htop]
          have e2 : ((a :: tl).map Hit.score).reverse =
              (tl.map Hit.score).reverse ++ [a.score] := by simp
          rw [e2]
          have hkr : k = (tl.map Hit.score).reverse.length + 1 := by
            simp only [List.length_reverse, List.length_map]
            simpa using hlen.symm
          rw [hkr]
          have hp1 := take_orderedInsert_snoc_perm x.score a.score
            ((tl.map Hit.score).reverse) hax
          refine hp1.trans ?_
          refine (List.Perm.cons x.score (List.reverse_perm _)).trans ?_
          have hp2 : List.Perm ((tl.orderedInsert hitAsc x).map Hit.score)
              (x.score :: tl.map Hit.score) := by
            simpa using (List.perm_orderedInsert hitAsc x tl).map Hit.score
          exact ((sortDescN_perm _).trans hp2).symm
        · have hp : List.Perm (tl.orderedInsert hitAsc x) (x :: tl) :=
            List.perm_orderedInsert hitAsc x tl
          rw [hp.subperm_right]
          rw [(List.perm_append_singleton x seen).subperm_left]
          rw [List.subperm_cons]
          exact ((List.sublist_cons_self a tl).subperm).trans hsub

/-- The whole loop preserves the invariant. -/
theorem heapRun_inv {k : Nat} :
    ∀ (rest : List Hit) {st : List Hit × Nat} {seen : List Hit},
      HeapInv k st seen →
      ∃ st2, heapRun st rest = some st2 ∧ HeapInv k st2 (seen ++ rest) := by
  intro rest
  induction rest with
  | nil =>
    intro st seen h
    exact ⟨st, rfl, by simpa using h⟩
  | cons x rest ih =>
    intro st seen h
    obtain ⟨st2, hstep, hinv2, -⟩ := heapStep_inv x h
    obtain ⟨st3, hrun, hinv3⟩ := ih hinv2
    refine ⟨st3, ?_, ?_⟩
    · rw [heapRun, hstep]
      exact hrun
    · exact (by simp : (seen ++ [x]) ++ rest = seen ++ x :: rest) ▸ hinv3

theorem foldl_orderedInsert_sorted_perm :
    ∀ (l acc : List Hit), acc.Sorted hitAsc →
      (l.foldl (fun h x => h.orderedInsert hitAsc x) acc).Sorted hitAsc ∧
        List.Perm (l.foldl (fun h x => h.orderedInsert hitAsc x) acc) (acc ++ l) := by
  intro l
  induction l with
  | nil => intro acc h; exact ⟨h, by simp⟩
  | cons x l ih =>
    intro acc h
    obtain ⟨h1, h2⟩ := ih (acc.orderedInsert hitAsc x) (List.Sorted.orderedInsert x acc h)
    refine ⟨h1, h2.trans ?_⟩
    refine (List.Perm.append_right l (List.perm_orderedInsert hitAsc x acc)).trans ?_
    exact List.perm_middle.symm

theorem heapOfList_sorted (l : List Hit) : (heapOfList l).Sorted hitAsc :=
  (foldl_orderedInsert_sorted_perm l [] (List.sorted_nil)).1

theorem heapOfList_perm (l : List Hit) : List.Perm (heapOfList l) l := by
  simpa using (foldl_orderedInsert_sorted_perm l [] (List.sorted_nil)).2

theorem heapOfList_length (l : List Hit) : (heapOfList l).length = l.length :=
  (heapOfList_perm l).length_eq

theorem heapRun_nil (st : List Hit × Nat) : heapRun st [] = some st := rfl

/-- Seeding the heap with the first `k` hits of a long-enough stream
establishes the invariant. -/
theorem heapSeed_inv {k : Nat} {hits : List Hit} (hk : 0 < k) (hn : k ≤ hits.length) :
    ∃ a tl, heapOfList (hits.take k) = a :: tl ∧
      HeapInv k (a :: tl, a.score) (hits.take k) := by
  have hlen : (heapOfList (hits.take k)).length = k := by
    rw [heapOfList_length, List.length_take]
    omega
  obtain ⟨a, tl, hcons⟩ : ∃ a tl, heapOfList (hits.take k) = a :: tl := by
    cases hc : heapOfList (hits.take k) with
    | nil => exfalso; rw [hc] at hlen; simp at hlen; omega
    | cons a tl => exact ⟨a, tl, rfl⟩
  have hsort : (a :: tl).Sorted hitAsc := hcons ▸ heapOfList_sorted (hits.take k)
  have hperm : List.Perm (a :: tl) (hits.take k) := hcons ▸ heapOfList_perm (hits.take k)
  refine ⟨a, tl, hcons, hsort, hcons ▸ hlen, ⟨a, rfl, rfl⟩, ?_, hperm.subperm⟩
  rw [← sortDescN_map_of_asc hsort, sortDescN_congr (hperm.map Hit.score)]
  unfold topkN
  apply List.take_of_length_le
  rw [sortDescN_length, List.length_map, List.length_take]
  omega

theorem heapTopK_eq {k : Nat} {hits : List Hit} {a : Hit} {tl : List Hit}
    (hcons : heapOfList (hits.take k) = a :: tl) :
    heapTopK k hits =
      match heapRun (a :: tl, a.score) (hits.drop k) with
      | none => none
      | some st => if st.1.length = k then some st.1 else none := by
  unfold heapTopK
  rw [hcons]

theorem simplified_heap_eq {k : Nat} {hits : List Hit} {a : Hit} {tl : List Hit}
    (hcons : heapOfList (hits.take k) = a :: tl) :
    simplified_heap_top_k hits k =
      match heapRun (a :: tl, a.score) (hits.drop k) with
      | none => none
      | some st => some (sortHitsDesc st.1) := by
  unfold simplified_heap_top_k
  rw [hcons]

/-- Full specification of `heapTopK` (hence of `HeapTopK::top_k`) under its
preconditions `1 ≤ k ≤ n`: it succeeds, returns exactly `k` hits drawn from
the stream, and their scores are exactly the `k` largest scores of the
stream. -/
theorem heapTopK_spec {k : Nat} {hits : List Hit} (hk : 0 < k) (hn : k ≤ hits.length) :
    ∃ out, heapTopK k hits = some out ∧ out.length = k ∧ out.Sorted hitAsc ∧
      sortDescN (out.map Hit.score) = topkN k (hits.map Hit.score) ∧
      out.Subperm hits := by
  obtain ⟨a, tl, hcons, hinv⟩ := heapSeed_inv hk hn
  obtain ⟨st2, hrun, hinv2⟩ := heapRun_inv (hits.drop k) hinv
  rw [List.take_append_drop] at hinv2
  obtain ⟨hs2, hlen2, -, htop2, hsub2⟩ := hinv2
  refine ⟨st2.1, ?_, hlen2, hs2, ?_, hsub2⟩
  · rw [heapTopK_eq hcons, hrun]
    show (if st2.1.length = k then some st2.1 else none) = some st2.1
    rw [if_pos hlen2]
  · rw [sortDescN_map_of_asc hs2, htop2]

/-- `heapTopK` (hence `HeapTopK::top_k`) panics on any stream shorter than
`k`: either the initial `peek().unwrap()` (empty seed) or the final output
length assertion fails. -/
theorem heapTopK_short {k : Nat} {hits : List Hit} (hn : hits.length < k) :
    heapTopK k hits = none := by
  have htk : hits.take k = hits := List.take_of_length_le (by omega)
  have hdrop : hits.drop k = [] := List.drop_eq_nil_of_le (by omega)
  cases hcons : heapOfList (hits.take k) with
  | nil => unfold heapTopK; rw [hcons]
  | cons a tl =>
    rw [heapTopK_eq hcons, hdrop, heapRun_nil]
    show (if (a :: tl).length = k then some (a :: tl) else none) = none
    rw [if_neg]
    have := heapOfList_length (hits.take k)
    rw [hcons, htk] at this
    omega

/-- Full specification of `simplified_heap_top_k` on any nonempty stream and
`k ≥ 1`: it succeeds and returns the `min k n` highest-scoring hits, sorted
by descending score, all drawn from the stream. -/
theorem simplified_heap_top_k_spec {k : Nat} {hits : List Hit} (hk : 0 < k)
    (hne : hits ≠ []) :
    ∃ out, simplified_heap_top_k hits k = some out ∧
      out.length = min k hits.length ∧ out.Sorted hitDesc ∧
      out.map Hit.score = topkN k (hits.map Hit.score) ∧
      out.Subperm hits := by
  rcases Nat.lt_or_ge hits.length k with hlt | hge
  · have htk : hits.take k = hits := List.take_of_length_le (by omega)
    have hdrop : hits.drop k = [] := List.drop_eq_nil_of_le (by omega)
    have hpos : 0 < hits.length := List.length_pos.mpr hne
    have hlen : (heapOfList (hits.take k)).length = hits.length := by
      rw [heapOfList_length, htk]
    obtain ⟨a, tl, hcons⟩ : ∃ a tl, heapOfList (hits.take k) = a :: tl := by
      cases hc : heapOfList (hits.take k) with
      | nil => exfalso; rw [hc] at hlen; simp at hlen; omega
      | cons a tl => exact ⟨a, tl, rfl⟩
    have hperm : List.Perm (a :: tl) hits := htk ▸ hcons ▸ heapOfList_perm (hits.take k)
    refine ⟨sortHitsDesc (a :: tl), ?_, ?_, sortHitsDesc_sorted _, ?_, ?_⟩
    · rw [simplified_heap_eq hcons, hdrop, heapRun_nil]
    · rw [sortHitsDesc_length]
      have := hperm.length_eq
      omega
    · rw [map_score_sortHitsDesc, sortDescN_congr (hperm.map Hit.score)]
      unfold topkN
      rw [List.take_of_length_le]
      rw [sortDescN_length, List.length_map]
      omega
    · exact (sortHitsDesc_perm _).subperm.trans hperm.subperm
  · obtain ⟨a, tl, hcons, hinv⟩ := heapSeed_inv hk hge
    obtain ⟨st2, hrun, hinv2⟩ := heapRun_inv (hits.drop k) hinv
    rw [List.take_append_drop] at hinv2
    obtain ⟨hs2, hlen2, -, htop2, hsub2⟩ := hinv2
    refine ⟨sortHitsDesc st2.1, ?_, ?_, sortHitsDesc_sorted _, ?_, ?_⟩
    · rw [simplified_heap_eq hcons, hrun]
    · rw [sortHitsDesc_length, hlen2]
      omega
    · rw [map_score_sortHitsDesc, sortDescN_map_of_asc hs2, htop2]
    · exact (sortHitsDesc_perm _).subperm.trans hsub2

/-- `simplified_heap_top_k` panics exactly on the empty stream (when
`k ≥ 1`): the `unwrap` after seeding finds an empty heap. -/
theorem simplified_heap_top_k_none_iff {k : Nat} {hits : List Hit} (hk : 0 < k) :
    simplified_heap_top_k hits k = none ↔ hits = [] := by
  constructor
  · intro hnone
    by_contra hne
    obtain ⟨out, hsome, -⟩ := simplified_heap_top_k_spec hk hne
    rw [hsome] at hnone
    exact Option.noConfusion hnone
  · rintro rfl
    have hnil : heapOfList (([] : List Hit).take k) = [] := by
      rw [List.take_nil]
      rfl
    unfold simplified_heap_top_k
    rw [hnil]

/-! ## The buffered quickselect loop invariant -/

theorem topkN_idem (k : Nat) (l : List Nat) : topkN k (topkN k l) = topkN k l := by
  conv_lhs => rw [topkN, sortDescN_eq_self (topkN_sorted k l)]
  rw [topkN, List.take_take, Nat.min_self]

theorem set_take_succ {l : List Hit} {i : Nat} (a : Hit) (h : i < l.length) :
    (l.set i a).take (i + 1) = l.take i ++ [a] := by
  rw [List.set_eq_take_cons_drop a h]
  rw [List.take_append_eq_append_take]
  have h1 : (l.take i).length = i := by rw [List.length_take]; omega
  rw [List.take_of_length_le (by omega), h1]
  have h2 : i + 1 - i = 1 := by omega
  rw [h2]
  rfl

theorem set_drop_succ {l : List Hit} {i : Nat} (a : Hit) (h : i < l.length) :
    (l.set i a).drop (i + 1) = l.drop (i + 1) := by
  rw [List.set_eq_take_cons_drop a h]
  rw [show l.take i ++ a :: l.drop (i + 1) = (l.take i ++ [a]) ++ l.drop (i + 1) by simp]
  apply List.drop_left'
  rw [List.length_append, List.length_take]
  simp
  omega

/-- In a list sorted by descending score whose element at index `k-1` is
`piv`, the first `k` elements score at least `piv.score` and the remaining
elements score at most `piv.score` (the partition guarantee of
`select_nth_unstable(k-1)`). -/
theorem sorted_pivot_bounds {l : List Hit} (hs : l.Sorted hitDesc) {k : Nat} {piv : Hit}
    (hk : 0 < k) (hkl : k - 1 < l.length) (hpiv : l[k-1] = piv) :
    (∀ h ∈ l.take k, piv.score ≤ h.score) ∧ (∀ h ∈ l.drop k, h.score ≤ piv.score) := by
  have hk1 : k - 1 + 1 = k := by omega
  have hsplit : l.drop (k-1) = piv :: l.drop k := by
    rw [List.drop_eq_getElem_cons hkl, hpiv, hk1]
  have hp := hs
  rw [← List.take_append_drop (k-1) l, List.Sorted, List.pairwise_append] at hp
  obtain ⟨-, hp2, hp3⟩ := hp
  constructor
  · intro h hm
    rw [← hk1, List.take_succ] at hm
    rw [List.getElem?_eq_getElem hkl, hpiv] at hm
    rcases List.mem_append.mp hm with hm | hm
    · exact hp3 h hm piv (by rw [hsplit]; exact List.mem_cons_self piv _)
    · rw [List.mem_singleton.mp hm]
    -- hmm membership toList
  · intro h hm
    rw [hsplit] at hp2
    exact List.rel_of_sorted_cons hp2 h hm

/-- Invariant of the `MedianTopK::top_k` processing loop: after the prefix
`seen` of the stream has been consumed, the state `(buf, len, t)` satisfies:
the physical buffer length is `2k`; the active length `len` is in `[k, 2k)`;
every active hit (the first `len` cells) scores at least `t`; every inactive
(stale) cell scores at most `t`; and the active cells carry the same top-k
score multiset as the hits seen so far. -/
def MedianInv (k : Nat) (st : List Hit × Nat × Nat) (seen : List Hit) : Prop :=
  st.1.length = 2 * k ∧ k ≤ st.2.1 ∧ st.2.1 < 2 * k ∧
    (∀ h ∈ st.1.take st.2.1, st.2.2 ≤ h.score) ∧
    (∀ h ∈ st.1.drop st.2.1, h.score ≤ st.2.2) ∧
    topkN k ((st.1.take st.2.1).map Hit.score) = topkN k (seen.map Hit.score)

/-- One loop iteration of `MedianTopK::top_k` preserves the invariant. -/
theorem medianStep_inv {k : Nat} {st : List Hit × Nat × Nat} {seen : List Hit} (x : Hit)
    (hk : 0 < k) (hinv : MedianInv k st seen) :
    ∃ st2, medianStep k st x = some st2 ∧ MedianInv k st2 (seen ++ [x]) := by
  obtain ⟨buf, len, t⟩ := st
  obtain ⟨hbuf, hlenk, hlen2k, hlive, hstale, htop⟩ := hinv
  dsimp only at hbuf hlenk hlen2k hlive hstale htop ⊢
  have hlive_len : (buf.take len).length = len := by
    rw [List.length_take]
    omega
  have hseen_k : k ≤ seen.length := by
    have h1 := congrArg List.length htop
    rw [topkN_length, topkN_length, List.length_map, List.length_map, hlive_len] at h1
    omega
  have htopk_ge : ∀ y ∈ topkN k (seen.map Hit.score), t ≤ y := by
    intro y hy
    rw [← htop] at hy
    obtain ⟨h, hm, rfl⟩ := List.mem_map.mp (topkN_subset y hy)
    exact hlive h hm
  have hemap : (seen ++ [x]).map Hit.score = seen.map Hit.score ++ [x.score] := by simp
  by_cases hx : x.score ≤ t
  · refine ⟨(buf, len, t), by simp [medianStep, hx], hbuf, hlenk, hlen2k, hlive, hstale, ?_⟩
    rw [hemap, topkN_snoc_of_le (by rw [List.length_map]; omega) htopk_ge hx, htop]
  · have hlt : len < buf.length := by omega
    have hbuf2len : (buf.set len x).length = 2 * k := by
      rw [List.length_set]
      exact hbuf
    have hlive2 : (buf.set len x).take (len + 1) = buf.take len ++ [x] := set_take_succ x hlt
    have hstale2 : (buf.set len x).drop (len + 1) = buf.drop (len + 1) := set_drop_succ x hlt
    have htop2 : topkN k (((buf.set len x).take (len + 1)).map Hit.score) =
        topkN k ((seen ++ [x]).map Hit.score) := by
      rw [hlive2, hemap]
      rw [show (buf.take len ++ [x]).map Hit.score =
            (buf.take len).map Hit.score ++ [x.score] by simp]
      rw [topkN_snoc, topkN_snoc, htop]
    by_cases hfull : len + 1 = (buf.set len x).length
    · have hfull2 : len + 1 = 2 * k := by rw [hfull, hbuf2len]
      have hallbuf : (buf.set len x).take (len + 1) = buf.set len x :=
        List.take_of_length_le (by omega)
      have hsortlen : (sortHitsDesc (buf.set len x)).length = 2 * k := by
        rw [sortHitsDesc_length, hbuf2len]
      have hkl : k - 1 < (sortHitsDesc (buf.set len x)).length := by
        rw [hsortlen]
        omega
      have hpiv : (sortHitsDesc (buf.set len x))[k-1]? =
          some ((sortHitsDesc (buf.set len x))[k-1]) := List.getElem?_eq_getElem hkl
      obtain ⟨hge, hle⟩ := sorted_pivot_bounds (sortHitsDesc_sorted (buf.set len x)) hk hkl rfl
      refine ⟨(sortHitsDesc (buf.set len x), k, ((sortHitsDesc (buf.set len x))[k-1]).score),
        ?_, hsortlen, Nat.le_refl k, (show k < 2 * k by omega), hge, hle, ?_⟩
      · simp only [medianStep, if_neg hx, if_pos hlt, if_pos hfull]
        rw [hpiv]
      · have e1 : ((sortHitsDesc (buf.set len x)).take k).map Hit.score =
            topkN k ((buf.set len x).map Hit.score) := by
          rw [List.map_take, map_score_sortHitsDesc]
          rfl
        rw [e1, ← hallbuf]
        rw [show topkN k (((buf.set len x).take (len+1)).map Hit.score) =
              topkN k ((seen ++ [x]).map Hit.score) from htop2]
        exact topkN_idem k _
    · refine ⟨(buf.set len x, len + 1, t), ?_, hbuf2len, (show k ≤ len + 1 by omega),
        (show len + 1 < 2 * k by rw [hbuf2len] at hfull; omega), ?_, ?_, htop2⟩
      · simp only [medianStep, if_neg hx, if_pos hlt, if_neg hfull]
      · intro h hm
        show t ≤ h.score
        rw [hlive2] at hm
        rcases List.mem_append.mp hm with hm | hm
        · exact hlive h hm
        · rw [List.mem_singleton.mp hm]
          omega
      · intro h hm
        show h.score ≤ t
        rw [hstale2] at hm
        apply hstale
        rw [← List.tail_drop] at hm
        exact List.mem_of_mem_tail hm

/-- The whole `MedianTopK::top_k` loop preserves the invariant. -/
theorem medianRun_inv {k : Nat} (hk : 0 < k) :
    ∀ (rest : List Hit) {st : List Hit × Nat × Nat} {seen : List Hit},
      MedianInv k st seen →
      ∃ st2, medianRun k st rest = some st2 ∧ MedianInv k st2 (seen ++ rest) := by
  intro rest
  induction rest with
  | nil =>
    intro st seen h
    exact ⟨st, rfl, by simpa using h⟩
  | cons x rest ih =>
    intro st seen h
    obtain ⟨st2, hstep, hinv2⟩ := medianStep_inv x hk h
    obtain ⟨st3, hrun, hinv3⟩ := ih hinv2
    refine ⟨st3, ?_, ?_⟩
    · rw [medianRun, hstep]
      exact hrun
    · exact (by simp : (seen ++ [x]) ++ rest = seen ++ x :: rest) ▸ hinv3

/-! ## Sorting against trailing zero-score placeholders -/

theorem orderedInsert_append_low (x : Hit) :
    ∀ (s zs : List Hit), (∀ z ∈ zs, hitDesc x z) →
      (s ++ zs).orderedInsert hitDesc x = s.orderedInsert hitDesc x ++ zs := by
  intro s
  induction s with
  | nil =>
    intro zs hz
    cases zs with
    | nil => rfl
    | cons z zs =>
      simp only [List.nil_append, List.orderedInsert,
        if_pos (hz z (List.mem_cons_self z zs))]
      rfl
  | cons b s ih =>
    intro zs hz
    show List.orderedInsert hitDesc x (b :: (s ++ zs)) =
      List.orderedInsert hitDesc x (b :: s) ++ zs
    rw [List.orderedInsert, List.orderedInsert]
    by_cases h : hitDesc x b
    · rw [if_pos h, if_pos h]
      rfl
    · rw [if_neg h, if_neg h, ih zs hz]
      rfl

theorem sortHitsDesc_replicate_zero (m : Nat) :
    sortHitsDesc (List.replicate m (Hit.mk 0 0)) = List.replicate m (Hit.mk 0 0) := by
  induction m with
  | zero => rfl
  | succ m ih =>
    rw [List.replicate_succ]
    show (sortHitsDesc (List.replicate m (Hit.mk 0 0))).orderedInsert hitDesc (Hit.mk 0 0) = _
    rw [ih]
    cases m with
    | zero => rfl
    | succ m =>
      rw [List.replicate_succ, List.orderedInsert, if_pos (by exact Nat.le_refl 0)]

/-- Sorting a buffer that consists of real hits followed by zero-score
placeholders keeps all placeholders at the tail, in place (stability of the
modelled sort on ties, with placeholders positioned last). -/
theorem sortHitsDesc_append_replicate_zero (xs : List Hit) (m : Nat) :
    sortHitsDesc (xs ++ List.replicate m (Hit.mk 0 0)) =
      sortHitsDesc xs ++ List.replicate m (Hit.mk 0 0) := by
  induction xs with
  | nil => simpa using sortHitsDesc_replicate_zero m
  | cons x xs ih =>
    show (sortHitsDesc (xs ++ List.replicate m (Hit.mk 0 0))).orderedInsert hitDesc x = _
    rw [ih]
    rw [orderedInsert_append_low x (sortHitsDesc xs) (List.replicate m (Hit.mk 0 0))]
    · rfl
    · intro z hz
      rw [(List.eq_of_mem_replicate hz : z = Hit.mk 0 0)]
      exact Nat.zero_le _

/-! ## Top-level specifications of `MedianTopK::top_k` on a fresh instance -/

/-- On a fresh instance with `1 ≤ k ≤ n`, `MedianTopK::top_k` succeeds and
writes exactly `k` hits whose scores are the `k` largest of the stream;
the model returns them sorted by descending score. -/
theorem medianTopK_fresh_spec {k : Nat} {hits : List Hit} (hk : 0 < k)
    (hn : k ≤ hits.length) :
    ∃ st out, MedianTopK.top_k (MedianTopK.new k) hits = some (st, out) ∧
      out.length = k ∧ out.Sorted hitDesc ∧
      out.map Hit.score = topkN k (hits.map Hit.score) := by
  have htklen : (hits.take k).length = k := by rw [List.length_take]; omega
  have hinv0 : MedianInv k
      (hits.take k ++ List.replicate k (Hit.mk 0 0), k, 0) (hits.take k) := by
    refine ⟨?_, Nat.le_refl k, (show k < 2 * k by omega), ?_, ?_, ?_⟩
    · rw [List.length_append, htklen, List.length_replicate]; omega
    · intro h _
      exact Nat.zero_le _
    · intro h hm
      rw [List.drop_left' htklen] at hm
      rw [(List.eq_of_mem_replicate hm : h = Hit.mk 0 0)]
    · rw [List.take_left' htklen]
  obtain ⟨st2, hrun, hinv2⟩ := medianRun_inv hk (hits.drop k) hinv0
  rw [List.take_append_drop] at hinv2
  obtain ⟨hbuf2, hlenk2, hlen2k2, hlive2, hstale2, htop2⟩ := hinv2
  have hlive_len2 : (st2.1.take st2.2.1).length = st2.2.1 := by
    rw [List.length_take]; omega
  have htopfull : topkN k (st2.1.map Hit.score) = topkN k (hits.map Hit.score) := by
    conv_lhs => rw [← List.take_append_drop st2.2.1 st2.1]
    rw [List.map_append]
    rw [topkN_append_of_le _ _ ?hl ?ha ?hm]
    · exact htop2
    case hl => rw [List.length_map]; omega
    case ha =>
      intro y hy
      obtain ⟨h, hm, rfl⟩ := List.mem_map.mp (topkN_subset y hy)
      exact hlive2 h hm
    case hm =>
      intro y hy
      obtain ⟨h, hm, rfl⟩ := List.mem_map.mp hy
      exact hstale2 h hm
  refine ⟨⟨sortHitsDesc st2.1, k⟩, (sortHitsDesc st2.1).take k, ?_, ?_, ?_, ?_⟩
  · show MedianTopK.top_k (MedianTopK.new k) hits = _
    simp only [MedianTopK.top_k, MedianTopK.new, List.length_replicate]
    rw [Nat.min_eq_right (show k ≤ 2 * k by omega), Nat.min_eq_left hn,
      List.drop_replicate, show 2 * k - k = k by omega]
    rw [hrun]
    have hb2 : (if k < st2.1.length then sortHitsDesc st2.1 else st2.1) = sortHitsDesc st2.1 :=
      if_pos (by omega)
    show (if k ≤ (if k < st2.1.length then sortHitsDesc st2.1 else st2.1).length then
        some (MedianTopK.mk (if k < st2.1.length then sortHitsDesc st2.1 else st2.1) k,
          (if k < st2.1.length then sortHitsDesc st2.1 else st2.1).take k)
      else none) = _
    rw [hb2]
    rw [if_pos (by rw [sortHitsDesc_length]; omega)]
  · rw [List.length_take, sortHitsDesc_length]; omega
  · exact (sortHitsDesc_sorted st2.1).sublist (List.take_sublist k _)
  · rw [List.map_take, map_score_sortHitsDesc]
    show topkN k (st2.1.map Hit.score) = _
    exact htopfull

/-- On a fresh instance with a stream of `n < k` hits, `MedianTopK::top_k`
succeeds and writes exactly `k` hits: the `n` real hits (sorted by
descending score in the model) followed by `k - n` zero-score placeholder
hits retained from construction. -/
theorem medianTopK_fresh_short {k : Nat} {hits : List Hit} (hk : 0 < k)
    (hn : hits.length < k) :
    MedianTopK.top_k (MedianTopK.new k) hits =
      some (⟨sortHitsDesc hits ++ List.replicate (2 * k - hits.length) (Hit.mk 0 0), k⟩,
        sortHitsDesc hits ++ List.replicate (k - hits.length) (Hit.mk 0 0)) := by
  have htk : hits.take hits.length = hits := List.take_of_length_le (Nat.le_refl _)
  have hdrop : hits.drop hits.length = [] := List.drop_eq_nil_of_le (Nat.le_refl _)
  have hslen : (sortHitsDesc hits).length = hits.length := sortHitsDesc_length hits
  simp only [MedianTopK.top_k, MedianTopK.new, List.length_replicate]
  rw [Nat.min_eq_right (show k ≤ 2 * k by omega),
    Nat.min_eq_right (show hits.length ≤ k by omega),
    List.drop_replicate, htk, hdrop]
  rw [show medianRun k (hits ++ List.replicate (2 * k - hits.length) (Hit.mk 0 0), k, 0) [] =
        some (hits ++ List.replicate (2 * k - hits.length) (Hit.mk 0 0), k, 0) from rfl]
  have hbuflen : (hits ++ List.replicate (2 * k - hits.length) (Hit.mk 0 0)).length = 2 * k := by
    rw [List.length_append, List.length_replicate]
    omega
  have hb2 : (if k < (hits ++ List.replicate (2 * k - hits.length) (Hit.mk 0 0)).length then
        sortHitsDesc (hits ++ List.replicate (2 * k - hits.length) (Hit.mk 0 0))
      else hits ++ List.replicate (2 * k - hits.length) (Hit.mk 0 0)) =
      sortHitsDesc hits ++ List.replicate (2 * k - hits.length) (Hit.mk 0 0) := by
    rw [if_pos (by rw [hbuflen]; omega), sortHitsDesc_append_replicate_zero]
  show (if k ≤ (if k < (hits ++ List.replicate (2 * k - hits.length) (Hit.mk 0 0)).length then
          sortHitsDesc (hits ++ List.replicate (2 * k - hits.length) (Hit.mk 0 0))
        else hits ++ List.replicate (2 * k - hits.length) (Hit.mk 0 0)).length then
      some (MedianTopK.mk (if k < (hits ++ List.replicate (2 * k - hits.length) (Hit.mk 0 0)).length then
          sortHitsDesc (hits ++ List.replicate (2 * k - hits.length) (Hit.mk 0 0))
        else hits ++ List.replicate (2 * k - hits.length) (Hit.mk 0 0)) k,
        (if k < (hits ++ List.replicate (2 * k - hits.length) (Hit.mk 0 0)).length then
          sortHitsDesc (hits ++ List.replicate (2 * k - hits.length) (Hit.mk 0 0))
        else hits ++ List.replicate (2 * k - hits.length) (Hit.mk 0 0)).take k)
    else none) = _
  rw [hb2]
  rw [if_pos (by rw [List.length_append, hslen, List.length_replicate]; omega)]
  rw [List.take_append_eq_append_take, List.take_of_length_le (by omega), hslen,
    List.take_replicate, Nat.min_eq_left (by omega)]

/-! ## The single-shot quickselect reference function -/

/-- Invariant of the `simplified_median_top_k` processing loop: the
accumulator holds between `k` and `2k - 1` hits, all scoring at least the
threshold, carrying the same top-k score multiset as the hits seen so far,
and forming a sub-multiset of them (the growable `Vec` holds no
placeholders). -/
def SimpMedianInv (k : Nat) (st : List Hit × Nat) (seen : List Hit) : Prop :=
  k ≤ st.1.length ∧ st.1.length < 2 * k ∧
    (∀ h ∈ st.1, st.2 ≤ h.score) ∧
    topkN k (st.1.map Hit.score) = topkN k (seen.map Hit.score) ∧
    st.1.Subperm seen

theorem simpMedianStep_inv {k : Nat} {st : List Hit × Nat} {seen : List Hit} (x : Hit)
    (hk : 0 < k) (hinv : SimpMedianInv k st seen) :
    SimpMedianInv k (simpMedianStep k st x) (seen ++ [x]) := by
  obtain ⟨acc, t⟩ := st
  obtain ⟨hlenk, hlen2k, hlive, htop, hsub⟩ := hinv
  dsimp only at hlenk hlen2k hlive htop hsub ⊢
  have hseen_k : k ≤ seen.length := by
    have h1 := congrArg List.length htop
    rw [topkN_length, topkN_length, List.length_map, List.length_map] at h1
    omega
  have htopk_ge : ∀ y ∈ topkN k (seen.map Hit.score), t ≤ y := by
    intro y hy
    rw [← htop] at hy
    obtain ⟨h, hm, rfl⟩ := List.mem_map.mp (topkN_subset y hy)
    exact hlive h hm
  have hemap : (seen ++ [x]).map Hit.score = seen.map Hit.score ++ [x.score] := by simp
  by_cases hx : x.score ≤ t
  · rw [show simpMedianStep k (acc, t) x = (acc, t) by simp [simpMedianStep, hx]]
    refine ⟨hlenk, hlen2k, hlive, ?_, ?_⟩
    · rw [hemap, topkN_snoc_of_le (by rw [List.length_map]; omega) htopk_ge hx, htop]
    · exact hsub.trans (List.sublist_append_left seen [x]).subperm
  · have htop2 : topkN k ((acc ++ [x]).map Hit.score) =
        topkN k ((seen ++ [x]).map Hit.score) := by
      rw [hemap, show (acc ++ [x]).map Hit.score = acc.map Hit.score ++ [x.score] by simp]
      rw [topkN_snoc, topkN_snoc, htop]
    have hsub2 : (acc ++ [x]).Subperm (seen ++ [x]) :=
      (List.subperm_append_right [x]).mpr hsub
    by_cases hfull : (acc ++ [x]).length = 2 * k
    · have hsortlen : (sortHitsDesc (acc ++ [x])).length = 2 * k := by
        rw [sortHitsDesc_length, hfull]
      have hkl : k - 1 < (sortHitsDesc (acc ++ [x])).length := by
        rw [hsortlen]; omega
      obtain ⟨hge, -⟩ := sorted_pivot_bounds (sortHitsDesc_sorted (acc ++ [x])) hk hkl rfl
      rw [show simpMedianStep k (acc, t) x =
            ((sortHitsDesc (acc ++ [x])).take k,
              ((sortHitsDesc (acc ++ [x]))[k-1]).score) by
        simp only [simpMedianStep, if_neg hx, if_pos hfull]
        rw [List.getElem?_eq_getElem hkl]
        rfl]
      refine ⟨?_, (show k < 2 * k by omega) |> fun h2 => ?_, hge, ?_, ?_⟩
      · rw [List.length_take, hsortlen]; omega
      · rw [List.length_take, hsortlen]; omega
      · have e1 : ((sortHitsDesc (acc ++ [x])).take k).map Hit.score =
            topkN k ((acc ++ [x]).map Hit.score) := by
          rw [List.map_take, map_score_sortHitsDesc]
          rfl
        rw [e1, htop2]
        exact topkN_idem k _
      · exact ((List.take_sublist k _).subperm.trans
          (sortHitsDesc_perm _).subperm).trans hsub2
    · rw [show simpMedianStep k (acc, t) x = (acc ++ [x], t) by
        simp only [simpMedianStep, if_neg hx, if_neg hfull]]
      refine ⟨?_, ?_, ?_, htop2, hsub2⟩
      · rw [List.length_append]; simp; omega
      · rw [List.length_append] at hfull ⊢; simp at hfull ⊢; omega
      · intro h hm
        rcases List.mem_append.mp hm with hm | hm
        · exact hlive h hm
        · rw [List.mem_singleton.mp hm]; omega

theorem simpMedianRun_inv {k : Nat} (hk : 0 < k) :
    ∀ (rest : List Hit) {st : List Hit × Nat} {seen : List Hit},
      SimpMedianInv k st seen →
      SimpMedianInv k (simpMedianRun k st rest) (seen ++ rest) := by
  intro rest
  induction rest with
  | nil =>
    intro st seen h
    simpa using h
  | cons x rest ih =>
    intro st seen h
    have h2 := ih (simpMedianStep_inv x hk h)
    rw [show simpMedianRun k st (x :: rest) = simpMedianRun k (simpMedianStep k st x) rest
      from rfl]
    exact (by simp : (seen ++ [x]) ++ rest = seen ++ x :: rest) ▸ h2

/-- Full specification of `simplified_median_top_k` for `k ≥ 1` and any
stream (including the empty one): it succeeds and returns the `min k n`
highest-scoring hits, sorted by descending score, all drawn from the stream
with no placeholder padding. -/
theorem simplified_median_top_k_spec {k : Nat} (hits : List Hit) (hk : 0 < k) :
    ∃ out, simplified_median_top_k hits k = some out ∧
      out.length = min k hits.length ∧ out.Sorted hitDesc ∧
      out.map Hit.score = topkN k (hits.map Hit.score) ∧
      out.Subperm hits := by
  have hkne : ¬ k = 0 := by omega
  rcases Nat.lt_or_ge hits.length k with hlt | hge
  · have htk : hits.take k = hits := List.take_of_length_le (by omega)
    have hdrop : hits.drop k = [] := List.drop_eq_nil_of_le (by omega)
    refine ⟨sortHitsDesc hits, ?_, ?_, sortHitsDesc_sorted hits, ?_, ?_⟩
    · unfold simplified_median_top_k
      rw [if_neg hkne, htk, hdrop]
      show some ((sortHitsDesc hits).take k) = some (sortHitsDesc hits)
      rw [List.take_of_length_le (by rw [sortHitsDesc_length]; omega)]
    · rw [sortHitsDesc_length]; omega
    · rw [map_score_sortHitsDesc]
      unfold topkN
      rw [List.take_of_length_le (by rw [sortDescN_length, List.length_map]; omega)]
    · exact (sortHitsDesc_perm hits).subperm
  · have hinv0 : SimpMedianInv k (hits.take k, 0) (hits.take k) := by
      refine ⟨?_, ?_, fun h _ => Nat.zero_le _, rfl, List.Subperm.refl _⟩
      · rw [List.length_take]; omega
      · rw [List.length_take]; omega
    have hinv2 := simpMedianRun_inv hk (hits.drop k) hinv0
    rw [List.take_append_drop] at hinv2
    obtain ⟨hlenk2, hlen2k2, hlive2, htop2, hsub2⟩ := hinv2
    refine ⟨(sortHitsDesc (simpMedianRun k (hits.take k, 0) (hits.drop k)).1).take k,
      ?_, ?_, ?_, ?_, ?_⟩
    · unfold simplified_median_top_k
      rw [if_neg hkne]
    · rw [List.length_take, sortHitsDesc_length]
      omega
    · exact (sortHitsDesc_sorted _).sublist (List.take_sublist k _)
    · rw [List.map_take, map_score_sortHitsDesc]
      show topkN k _ = _
      exact htop2
    · exact ((List.take_sublist k _).subperm.trans
        (sortHitsDesc_perm _).subperm).trans hsub2

/-! ## Claim theorems -/

/-- C8: two hits are equal exactly when both their `score` and `doc` fields
are equal, while the ordering comparison `Hit.cmp` depends only on the score
fields with the higher score preferred (it answers `lt` — top priority in
the reversed order used by the containers — precisely for the hit of
strictly higher score, and `doc` is never consulted), so two hits with equal
scores but different docs compare as equivalent yet are not equal. -/
theorem claim_C8 :
    (∀ a b : Hit, a = b ↔ a.score = b.score ∧ a.doc = b.doc) ∧
    (∀ s s2 d1 d2 d3 d4 : Nat,
      Hit.cmp (Hit.mk s d1) (Hit.mk s2 d2) = Hit.cmp (Hit.mk s d3) (Hit.mk s2 d4)) ∧
    (∀ a b : Hit, Hit.cmp a b = Ordering.eq ↔ a.score = b.score) ∧
    (∀ a b : Hit, Hit.cmp a b = Ordering.lt ↔ b.score < a.score) ∧
    (Hit.cmp (Hit.mk 5 1) (Hit.mk 5 2) = Ordering.eq ∧ Hit.mk 5 1 ≠ Hit.mk 5 2) := by
  have hswap_eq : ∀ o : Ordering, o.swap = Ordering.eq ↔ o = Ordering.eq := by
    intro o; cases o <;> simp [Ordering.swap]
  have hswap_lt : ∀ o : Ordering, o.swap = Ordering.lt ↔ o = Ordering.gt := by
    intro o; cases o <;> simp [Ordering.swap]
  refine ⟨?_, ?_, ?_, ?_, by decide, by decide⟩
  · intro a b
    cases a; cases b
    simp [Hit.mk.injEq]
  · intro s s2 d1 d2 d3 d4
    rfl
  · intro a b
    rw [Hit.cmp, hswap_eq, Nat.compare_eq_eq]
  · intro a b
    rw [Hit.cmp, hswap_lt, Nat.compare_eq_gt]

/-- C3: for every `k ≥ 1`, on any stream shorter than `k` (the empty stream
included) `HeapTopK::top_k` fails fatally — modelled as `none` — instead of
returning an output shorter than `k`: with an empty seed the initial
`peek().unwrap()` fails, and with `1 ≤ n < k` the final
`assert_eq!(output.len(), self.k)` fails. -/
theorem claim_C3 :
    ∀ (s : HeapTopK) (hits : List Hit), 1 ≤ s.k → hits.length < s.k →
      HeapTopK.top_k s hits = none := by
  intro s hits _ hn
  show (heapTopK s.k hits).map _ = none
  rw [heapTopK_short hn]
  rfl

/-- C3 witness: `k = 2` with the single-hit stream (and with the empty
stream) makes `HeapTopK::top_k` fail. -/
theorem claim_C3_witness :
    1 ≤ (HeapTopK.new 2).k ∧ ([Hit.mk 5 0] : List Hit).length < (HeapTopK.new 2).k ∧
      HeapTopK.top_k (HeapTopK.new 2) [Hit.mk 5 0] = none :=
  ⟨by decide, by decide, claim_C3 (HeapTopK.new 2) [Hit.mk 5 0] (by decide) (by decide)⟩

/-- C4: for every `k ≥ 1` and stream of `n < k` hits, `MedianTopK::top_k` on
a freshly constructed instance succeeds and writes exactly `k` hits: the `n`
real hits followed by `k - n` copies of the zero-score placeholder
`Hit { score: 0, doc: 0 }` retained from construction. -/
theorem claim_C4 :
    ∀ (k : Nat) (hits : List Hit), 1 ≤ k → hits.length < k →
      MedianTopK.top_k (MedianTopK.new k) hits =
        some (⟨sortHitsDesc hits ++ List.replicate (2 * k - hits.length) (Hit.mk 0 0), k⟩,
          sortHitsDesc hits ++ List.replicate (k - hits.length) (Hit.mk 0 0)) ∧
      (sortHitsDesc hits ++ List.replicate (k - hits.length) (Hit.mk 0 0)).length = k := by
  intro k hits hk hn
  refine ⟨medianTopK_fresh_short (by omega) hn, ?_⟩
  rw [List.length_append, sortHitsDesc_length, List.length_replicate]
  omega

/-- C4 witness: `k = 2` on the single-hit stream pads the output with one
placeholder. -/
theorem claim_C4_witness :
    (1 ≤ 2 ∧ ([Hit.mk 5 7] : List Hit).length < 2) ∧
      (MedianTopK.top_k (MedianTopK.new 2) [Hit.mk 5 7] =
        some (⟨sortHitsDesc [Hit.mk 5 7] ++ List.replicate (2 * 2 - 1) (Hit.mk 0 0), 2⟩,
          sortHitsDesc [Hit.mk 5 7] ++ List.replicate (2 - 1) (Hit.mk 0 0)) ∧
      (sortHitsDesc [Hit.mk 5 7] ++ List.replicate (2 - 1) (Hit.mk 0 0)).length = 2) :=
  ⟨⟨by decide, by decide⟩, claim_C4 2 [Hit.mk 5 7] (by decide) (by decide)⟩

/-- C2: the reuse-independence contract is violated by `MedianTopK`.  With
`k = 1`, a first call on stream `[{9,1},{8,2}]` followed by a second call on
stream `[{5,3}]` returns `[{8,2}]` — a hit of the first stream, absent from
the second — while a fresh instance on `[{5,3}]` returns `[{5,3}]`.  The
stale buffer cells of the first call leak into the second call's final
selection step. -/
theorem claim_C2 :
    (MedianTopK.top_k (MedianTopK.new 1) [Hit.mk 9 1, Hit.mk 8 2]).bind
        (fun p => MedianTopK.top_k p.1 [Hit.mk 5 3]) =
      some (⟨[Hit.mk 8 2, Hit.mk 5 3], 1⟩, [Hit.mk 8 2]) ∧
    MedianTopK.top_k (MedianTopK.new 1) [Hit.mk 5 3] =
      some (⟨[Hit.mk 5 3, Hit.mk 0 0], 1⟩, [Hit.mk 5 3]) ∧
    Hit.mk 8 2 ∉ [Hit.mk 5 3] := by
  refine ⟨by decide, by decide, by decide⟩

/-- C10: for `k ≥ 1`, `simplified_heap_top_k` fails (the `unwrap` after
seeding) exactly on the empty stream, whereas `simplified_median_top_k`
always succeeds and returns the empty vector on the empty stream. -/
theorem claim_C10 :
    ∀ (k : Nat) (hits : List Hit), 1 ≤ k →
      ((simplified_heap_top_k hits k = none) ↔ hits = []) ∧
      (∃ out, simplified_median_top_k hits k = some out ∧ (hits = [] → out = [])) := by
  intro k hits hk
  constructor
  · exact simplified_heap_top_k_none_iff hk
  · obtain ⟨out, hsome, hlen, -, -, -⟩ := simplified_median_top_k_spec hits hk
    refine ⟨out, hsome, ?_⟩
    rintro rfl
    simpa using hlen

/-- C10 witness: at `k = 1`, the heap reference fails on `[]` and the median
reference returns `[]` there. -/
theorem claim_C10_witness :
    1 ≤ 1 ∧
      (((simplified_heap_top_k [] 1 = none) ↔ ([] : List Hit) = []) ∧
        (∃ out, simplified_median_top_k [] 1 = some out ∧ (([] : List Hit) = [] → out = []))) :=
  ⟨by decide, claim_C10 1 [] (by decide)⟩

/-- C1 counterexample to the claim as stated (which quantifies over every
stream length `n`): at `k = 2` and the one-hit stream, `HeapTopK::top_k`
fails instead of writing `min(k, n) = 1` hits, and `MedianTopK::top_k`
writes `2 ≠ min(k, n)` hits. -/
theorem claim_C1_counterexample :
    HeapTopK.top_k (HeapTopK.new 2) [Hit.mk 5 0] = none ∧
    Option.map (fun p => p.2.length) (MedianTopK.top_k (MedianTopK.new 2) [Hit.mk 5 0]) =
      some 2 ∧
    min 2 ([Hit.mk 5 0] : List Hit).length = 1 ∧ (2 : Nat) ≠ 1 := by
  refine ⟨by decide, by decide, by decide, by decide⟩

/-- C1 (amended to streams of length at least `k`, where `min(k, n) = k`;
shorter streams are settled by C3 and C4): for every `k ≥ 1`, stream of
length `≥ k` and permutation of it, both freshly constructed selectors
succeed, overwrite the output with exactly `k` hits, and after sorting the
output carries exactly the reference function's scores computed on the
permuted stream — so the result's score multiset is order-independent, i.e.
the top-k of the stream up to equal-score ties. -/
theorem claim_C1 :
    ∀ (k : Nat) (hits hits2 : List Hit), 1 ≤ k → k ≤ hits.length → List.Perm hits hits2 →
      ∃ stH outH stM outM ref,
        HeapTopK.top_k (HeapTopK.new k) hits = some (stH, outH) ∧
        MedianTopK.top_k (MedianTopK.new k) hits = some (stM, outM) ∧
        simplified_median_top_k hits2 k = some ref ∧
        outH.length = k ∧ outM.length = k ∧
        (sortHitsDesc outH).map Hit.score = ref.map Hit.score ∧
        (sortHitsDesc outM).map Hit.score = ref.map Hit.score := by
  intro k hits hits2 hk hn hperm
  obtain ⟨outH, hH, hHlen, -, hHscore, -⟩ := heapTopK_spec hk hn
  obtain ⟨stM, outM, hM, hMlen, hMsorted, hMscore⟩ := medianTopK_fresh_spec hk hn
  obtain ⟨ref, hR, hRlen, -, hRscore, -⟩ := simplified_median_top_k_spec hits2 hk
  have hscores : topkN k (hits2.map Hit.score) = topkN k (hits.map Hit.score) :=
    topkN_congr ((hperm.map Hit.score).symm) k
  refine ⟨⟨[], k⟩, outH, stM, outM, ref, ?_, hM, hR, hHlen, hMlen, ?_, ?_⟩
  · show (heapTopK k hits).map _ = _
    rw [hH]
    rfl
  · rw [map_score_sortHitsDesc, hRscore, hscores, hHscore]
  · rw [map_score_sortHitsDesc, hRscore, hscores, ← hMscore]
    have hsorted2 : (outM.map Hit.score).Sorted descN := by
      rw [List.Sorted, List.pairwise_map]
      exact hMsorted
    exact sortDescN_eq_self hsorted2

/-- C1 witness: scores `[5,1,9,3]`, `k = 2`, checked against the reversed
stream. -/
theorem claim_C1_witness :
    (1 ≤ 2 ∧ 2 ≤ ([Hit.mk 5 0, Hit.mk 1 1, Hit.mk 9 2, Hit.mk 3 3] : List Hit).length ∧
      List.Perm [Hit.mk 5 0, Hit.mk 1 1, Hit.mk 9 2, Hit.mk 3 3]
        [Hit.mk 3 3, Hit.mk 9 2, Hit.mk 1 1, Hit.mk 5 0]) ∧
    (∃ stH outH stM outM ref,
        HeapTopK.top_k (HeapTopK.new 2) [Hit.mk 5 0, Hit.mk 1 1, Hit.mk 9 2, Hit.mk 3 3] =
          some (stH, outH) ∧
        MedianTopK.top_k (MedianTopK.new 2) [Hit.mk 5 0, Hit.mk 1 1, Hit.mk 9 2, Hit.mk 3 3] =
          some (stM, outM) ∧
        simplified_median_top_k [Hit.mk 3 3, Hit.mk 9 2, Hit.mk 1 1, Hit.mk 5 0] 2 =
          some ref ∧
        outH.length = 2 ∧ outM.length = 2 ∧
        (sortHitsDesc outH).map Hit.score = ref.map Hit.score ∧
        (sortHitsDesc outM).map Hit.score = ref.map Hit.score) :=
  ⟨⟨by decide, by decide, by decide⟩,
    claim_C1 2 [Hit.mk 5 0, Hit.mk 1 1, Hit.mk 9 2, Hit.mk 3 3]
      [Hit.mk 3 3, Hit.mk 9 2, Hit.mk 1 1, Hit.mk 5 0] (by decide) (by decide) (by decide)⟩

/-- C5 counterexample to the claim as stated (which quantifies over every
stream length `n`): `simplified_heap_top_k` on the empty stream with `k = 1`
fails (the `unwrap` after seeding) instead of returning a sequence of length
`min(k, n) = 0`. -/
theorem claim_C5_counterexample :
    simplified_heap_top_k [] 1 = none ∧ min 1 (([] : List Hit)).length = 0 := by
  refine ⟨by decide, by decide⟩

/-- C5 (amended: the heap reference function requires a nonempty stream —
on the empty stream it fails, see C10 — while the median reference covers
every stream): for `k ≥ 1`, each reference function returns exactly
`min(k, n)` hits, sorted by descending score, drawn from the stream (no
placeholder padding), whose scores are the `min(k, n)` largest of the
stream. -/
theorem claim_C5 :
    ∀ (k : Nat) (hits : List Hit), 1 ≤ k →
      (hits ≠ [] → ∃ out, simplified_heap_top_k hits k = some out ∧
        out.length = min k hits.length ∧ out.Sorted hitDesc ∧
        out.map Hit.score = topkN k (hits.map Hit.score) ∧ out.Subperm hits) ∧
      (∃ out2, simplified_median_top_k hits k = some out2 ∧
        out2.length = min k hits.length ∧ out2.Sorted hitDesc ∧
        out2.map Hit.score = topkN k (hits.map Hit.score) ∧ out2.Subperm hits) := by
  intro k hits hk
  exact ⟨fun hne => simplified_heap_top_k_spec hk hne,
    simplified_median_top_k_spec hits hk⟩

/-- C5 witness: scores `[5,1,9,3]`, `k = 2`. -/
theorem claim_C5_witness :
    1 ≤ 2 ∧
      ((([Hit.mk 5 0, Hit.mk 1 1, Hit.mk 9 2, Hit.mk 3 3] : List Hit) ≠ [] →
        ∃ out, simplified_heap_top_k [Hit.mk 5 0, Hit.mk 1 1, Hit.mk 9 2, Hit.mk 3 3] 2 =
            some out ∧
          out.length = min 2 ([Hit.mk 5 0, Hit.mk 1 1, Hit.mk 9 2, Hit.mk 3 3] :
            List Hit).length ∧
          out.Sorted hitDesc ∧
          out.map Hit.score =
            topkN 2 (([Hit.mk 5 0, Hit.mk 1 1, Hit.mk 9 2, Hit.mk 3 3] :
              List Hit).map Hit.score) ∧
          out.Subperm [Hit.mk 5 0, Hit.mk 1 1, Hit.mk 9 2, Hit.mk 3 3]) ∧
      (∃ out2, simplified_median_top_k [Hit.mk 5 0, Hit.mk 1 1, Hit.mk 9 2, Hit.mk 3 3] 2 =
          some out2 ∧
        out2.length = min 2 ([Hit.mk 5 0, Hit.mk 1 1, Hit.mk 9 2, Hit.mk 3 3] :
          List Hit).length ∧
        out2.Sorted hitDesc ∧
        out2.map Hit.score =
          topkN 2 (([Hit.mk 5 0, Hit.mk 1 1, Hit.mk 9 2, Hit.mk 3 3] :
            List Hit).map Hit.score) ∧
        out2.Subperm [Hit.mk 5 0, Hit.mk 1 1, Hit.mk 9 2, Hit.mk 3 3])) :=
  ⟨by decide, claim_C5 2 [Hit.mk 5 0, Hit.mk 1 1, Hit.mk 9 2, Hit.mk 3 3] (by decide)⟩

/-- C6: for `k ≥ 1` and a stream of length `≥ k`, both selectors (the heap
selector from any stored state — it clears its heap on entry — and the
median selector on a fresh instance) and `simplified_heap_top_k` run to
completion without a panic: the computation is total under these
preconditions. -/
theorem claim_C6 :
    ∀ (k : Nat) (hits h0 : List Hit), 1 ≤ k → k ≤ hits.length →
      (HeapTopK.top_k ⟨h0, k⟩ hits).isSome ∧
      (MedianTopK.top_k (MedianTopK.new k) hits).isSome ∧
      (simplified_heap_top_k hits k).isSome := by
  intro k hits h0 hk hn
  have hne : hits ≠ [] := by
    intro hcon
    rw [hcon] at hn
    simp at hn
    omega
  obtain ⟨outH, hH, -⟩ := heapTopK_spec hk hn
  obtain ⟨stM, outM, hM, -⟩ := medianTopK_fresh_spec hk hn
  obtain ⟨outS, hS, -⟩ := simplified_heap_top_k_spec hk hne
  refine ⟨?_, ?_, ?_⟩
  · show ((heapTopK k hits).map _).isSome
    rw [hH]
    rfl
  · rw [hM]
    rfl
  · rw [hS]
    rfl

/-- C6 witness: scores `[5,1,9,3]`, `k = 2`, heap selector started from a
nonempty stale heap. -/
theorem claim_C6_witness :
    (1 ≤ 2 ∧ 2 ≤ ([Hit.mk 5 0, Hit.mk 1 1, Hit.mk 9 2, Hit.mk 3 3] : List Hit).length) ∧
      ((HeapTopK.top_k ⟨[Hit.mk 77 9], 2⟩
          [Hit.mk 5 0, Hit.mk 1 1, Hit.mk 9 2, Hit.mk 3 3]).isSome ∧
        (MedianTopK.top_k (MedianTopK.new 2)
          [Hit.mk 5 0, Hit.mk 1 1, Hit.mk 9 2, Hit.mk 3 3]).isSome ∧
        (simplified_heap_top_k [Hit.mk 5 0, Hit.mk 1 1, Hit.mk 9 2, Hit.mk 3 3] 2).isSome) :=
  ⟨⟨by decide, by decide⟩,
    claim_C6 2 [Hit.mk 5 0, Hit.mk 1 1, Hit.mk 9 2, Hit.mk 3 3] [Hit.mk 77 9]
      (by decide) (by decide)⟩

/-- C7: the bounded-heap loop invariant.  After seeding from the first `k`
hits of a stream of length `≥ k` the invariant `HeapInv` holds, and under
`HeapInv`: the heap holds exactly `k` hits which are the `k` highest-scoring
hits seen so far (their descending score sort equals the canonical top-k of
the scores seen), its root is a minimum-score retained hit whose score is
the `threshold` variable; one loop step preserves the invariant, and a hit
with `score ≤ threshold` is discarded with the state — hence the retained
score multiset — unchanged. -/
theorem claim_C7 :
    ∀ (k : Nat) (hits : List Hit) (st : List Hit × Nat) (seen : List Hit) (x : Hit),
      1 ≤ k → k ≤ hits.length →
      (∃ a tl, heapOfList (hits.take k) = a :: tl ∧
        HeapInv k (a :: tl, a.score) (hits.take k)) ∧
      (HeapInv k st seen →
        st.1.length = k ∧
        (∃ root, st.1.head? = some root ∧ root.score = st.2 ∧
          ∀ h ∈ st.1, root.score ≤ h.score) ∧
        sortDescN (st.1.map Hit.score) = topkN k (seen.map Hit.score) ∧
        (∃ st2, heapStep st x = some st2 ∧ HeapInv k st2 (seen ++ [x])) ∧
        (x.score ≤ st.2 → heapStep st x = some st)) := by
  intro k hits st seen x hk hn
  refine ⟨heapSeed_inv hk hn, ?_⟩
  intro hinv
  obtain ⟨st2, hstep, hinv2, hskip⟩ := heapStep_inv x hinv
  obtain ⟨hs, hlen, ⟨root, hhead, hroot⟩, htop, -⟩ := hinv
  refine ⟨hlen, ⟨root, hhead, hroot, sorted_head_le hs hhead⟩, ?_, ⟨st2, hstep, hinv2⟩, ?_⟩
  · rw [sortDescN_map_of_asc hs, htop]
  · intro hle
    rw [hstep, hskip hle]

/-- C7 witness: the invariant at `k = 1` on the one-hit stream, with a
higher-scoring next hit. -/
theorem claim_C7_witness :
    (1 ≤ 1 ∧ 1 ≤ ([Hit.mk 5 0] : List Hit).length) ∧
      (∃ a tl, heapOfList (([Hit.mk 5 0] : List Hit).take 1) = a :: tl ∧
        HeapInv 1 (a :: tl, a.score) (([Hit.mk 5 0] : List Hit).take 1)) :=
  ⟨⟨by decide, by decide⟩,
    (claim_C7 1 [Hit.mk 5 0] ([Hit.mk 5 0], 5) [Hit.mk 5 0] (Hit.mk 7 1)
      (by decide) (by decide)).1⟩

/-- C9: on the stream with scores `[5,1,9,3]` (any doc values) and `k = 2`,
all four implementations produce exactly two hits whose scores in descending
order are `[9, 5]`. -/
theorem claim_C9 :
    ∀ d1 d2 d3 d4 : Nat,
      (∃ st out, HeapTopK.top_k (HeapTopK.new 2)
          [Hit.mk 5 d1, Hit.mk 1 d2, Hit.mk 9 d3, Hit.mk 3 d4] = some (st, out) ∧
        out.length = 2 ∧ sortDescN (out.map Hit.score) = [9, 5]) ∧
      (∃ st out, MedianTopK.top_k (MedianTopK.new 2)
          [Hit.mk 5 d1, Hit.mk 1 d2, Hit.mk 9 d3, Hit.mk 3 d4] = some (st, out) ∧
        out.length = 2 ∧ sortDescN (out.map Hit.score) = [9, 5]) ∧
      (∃ out, simplified_heap_top_k
          [Hit.mk 5 d1, Hit.mk 1 d2, Hit.mk 9 d3, Hit.mk 3 d4] 2 = some out ∧
        out.map Hit.score = [9, 5]) ∧
      (∃ out, simplified_median_top_k
          [Hit.mk 5 d1, Hit.mk 1 d2, Hit.mk 9 d3, Hit.mk 3 d4] 2 = some out ∧
        out.map Hit.score = [9, 5]) := by
  intro d1 d2 d3 d4
  have hk : 0 < 2 := by omega
  have hn : 2 ≤ ([Hit.mk 5 d1, Hit.mk 1 d2, Hit.mk 9 d3, Hit.mk 3 d4] : List Hit).length := by
    simp
  have hne : ([Hit.mk 5 d1, Hit.mk 1 d2, Hit.mk 9 d3, Hit.mk 3 d4] : List Hit) ≠ [] := by
    simp
  have hmap : ([Hit.mk 5 d1, Hit.mk 1 d2, Hit.mk 9 d3, Hit.mk 3 d4] : List Hit).map Hit.score =
      [5, 1, 9, 3] := rfl
  have htop : topkN 2 [5, 1, 9, 3] = [9, 5] := by decide
  obtain ⟨outH, hH, hHlen, -, hHscore, -⟩ := heapTopK_spec hk hn
  obtain ⟨stM, outM, hM, hMlen, -, hMscore⟩ := medianTopK_fresh_spec hk hn
  obtain ⟨outS, hS, -, -, hSscore, -⟩ := simplified_heap_top_k_spec hk hne
  obtain ⟨outQ, hQ, -, -, hQscore, -⟩ := simplified_median_top_k_spec _ hk
  refine ⟨⟨⟨[], 2⟩, outH, ?_, hHlen, ?_⟩, ⟨stM, outM, hM, hMlen, ?_⟩,
    ⟨outS, hS, ?_⟩, ⟨outQ, hQ, ?_⟩⟩
  · show (heapTopK 2 _).map _ = _
    rw [hH]
    rfl
  · rw [hHscore, hmap, htop]
  · rw [hMscore, hmap, htop]
    exact sortDescN_eq_self (by decide)
  · rw [hSscore, hmap, htop]
  · rw [hQscore, hmap, htop]

end TopkBench
